import Mathlib

/-!
Verification of the FX margin-trading simulator core (`app.py`).

The Python source works over IEEE floats; here the arithmetic is embedded
over `ℚ` (exact rational arithmetic), the usual idealisation for the
closed-form daily arithmetic the program performs.  Machine floats never
overflow in the modelled ranges and every modelled code path is guarded
against NaN/infinity production (`safe_floor`'s NaN guard, the `s0 <= 0`
and `deposit > 0` guards), so no rational-representable input reaches an
undefined float operation.

Source names are kept: `safe_floor`, `build_prices_linear`,
`lots_cap_by_margin`, `lots_from_leverage`, `compute_series`, and the two
Streamlit callbacks `_recalc_from_leff` / `_recalc_from_lots` (leading
underscores dropped).
-/

/-- Units per lot: `LOT_UNITS = 100_000` in the source. -/
def LOT_UNITS : ℚ := 100000

/-- Commission per lot per side: `FEE_PER_LOT_PER_SIDE = 1_100.0` in the source. -/
def FEE_PER_LOT_PER_SIDE : ℚ := 1100

/-- Source `safe_floor`: floors to an int, returning 0 on NaN/infinity.
Rationals have no NaN/infinity, so only the floor remains. -/
def safe_floor (x : ℚ) : ℤ := ⌊x⌋

/-- Source `build_prices_linear(days, s0, s1)`:
`days = max(1, int(days)); np.linspace(s0, s1, days + 1)`.
`np.linspace` with `num = d + 1` endpoints included gives
entry `i = s0 + (s1 - s0) * i / d`. -/
def build_prices_linear (days : ℤ) (s0 s1 : ℚ) : List ℚ :=
  (List.range ((max 1 days).toNat + 1)).map
    (fun i : ℕ => s0 + (s1 - s0) * (i : ℚ) / ((max 1 days : ℤ) : ℚ))

/-- Source `lots_cap_by_margin(deposit, per_lot_margin)`:
`max(1, safe_floor(deposit / max(1.0, per_lot_margin)))`. -/
def lots_cap_by_margin (deposit per_lot_margin : ℚ) : ℤ :=
  max 1 (safe_floor (deposit / max 1 per_lot_margin))

/-- Source `lots_from_leverage(leff, deposit, s0)`:
`if s0 <= 0: return 1; max(1, safe_floor((leff * deposit) / (s0 * LOT_UNITS)))`. -/
def lots_from_leverage (leff deposit s0 : ℚ) : ℤ :=
  if s0 ≤ 0 then 1 else max 1 (safe_floor ((leff * deposit) / (s0 * LOT_UNITS)))

/-- Source `np.diff(prices, prepend=prices[0])`: entry 0 is `p0 - p0 = 0`,
entry `i > 0` is `prices[i] - prices[i-1]`.  Pointwise this is
`zipWith (· - ·) prices (p0 :: prices)` (the longer second list is truncated). -/
def diffList : List ℚ → List ℚ
  | [] => []
  | p :: ps => List.zipWith (fun a b => a - b) (p :: ps) (p :: p :: ps)

/-- Source `1 if direction_sign == 1 else -1` (the sign applied to the swap magnitude). -/
def swap_sign (direction_sign : ℤ) : ℚ := if direction_sign = 1 then 1 else -1

/-- Source swap array: `swap = np.zeros(n); if n > 1: swap[1:] = daily_swap`. -/
def swapList (n : ℕ) (daily_swap : ℚ) : List ℚ :=
  if 1 < n then 0 :: List.replicate (n - 1) daily_swap else List.replicate n 0

/-- Swap series of `compute_series`:
`daily_swap = (1 if direction_sign == 1 else -1) * abs(swap_input) * lots`. -/
def engineSwap (prices : List ℚ) (lots direction_sign : ℤ) (swap_input : ℚ) : List ℚ :=
  swapList prices.length (swap_sign direction_sign * |swap_input| * (lots : ℚ))

/-- Source `pnl_fx = direction_sign * diff * units` with `units = lots * LOT_UNITS`. -/
def pnl_fxList (prices : List ℚ) (lots direction_sign : ℤ) : List ℚ :=
  (diffList prices).map (fun d => (direction_sign : ℚ) * d * ((lots : ℚ) * LOT_UNITS))

/-- Source fee array: `fee = np.zeros(n)`;
`if n >= 1 and lots > 0: fee[0] -= FEE_PER_LOT_PER_SIDE * lots`;
`if n >= 2 and lots > 0: fee[-1] -= FEE_PER_LOT_PER_SIDE * lots`. -/
def feeList (n : ℕ) (lots : ℤ) : List ℚ :=
  let fee0 := List.replicate n (0 : ℚ)
  let fee1 := if 1 ≤ n ∧ 0 < lots
    then fee0.set 0 (-(FEE_PER_LOT_PER_SIDE * (lots : ℚ))) else fee0
  if 2 ≤ n ∧ 0 < lots
    then fee1.set (n - 1) (-(FEE_PER_LOT_PER_SIDE * (lots : ℚ))) else fee1

/-- Source `pnl_total = pnl_fx + swap + fee` (elementwise, all three of length `n`). -/
def pnl_totalList (prices : List ℚ) (lots direction_sign : ℤ) (swap_input : ℚ) : List ℚ :=
  List.zipWith (· + ·)
    (List.zipWith (· + ·) (pnl_fxList prices lots direction_sign)
      (engineSwap prices lots direction_sign swap_input))
    (feeList prices.length lots)

/-- Running cumulative sum starting from `acc`:
`cumsumFrom acc [x₁, x₂, ...] = [acc + x₁, acc + x₁ + x₂, ...]`. -/
def cumsumFrom (acc : ℚ) : List ℚ → List ℚ
  | [] => []
  | x :: xs => (acc + x) :: cumsumFrom (acc + x) xs

/-- Source `equity = initial_deposit + np.cumsum(pnl_total)`. -/
def equityList (initial_deposit : ℚ) (totals : List ℚ) : List ℚ :=
  cumsumFrom initial_deposit totals

/-- Sum of the FX P&L series (`float(pnl_fx.sum())` in the source). -/
def fx_total (prices : List ℚ) (lots direction_sign : ℤ) : ℚ :=
  (pnl_fxList prices lots direction_sign).sum

/-- The summary dict returned by `compute_series`.  Field names translate the
source's Japanese keys: `end_equity` = 期末口座状況, `fx_fee_inclusive` =
為替差損益(手数料込), `swap_total` = スワップポイント利益, `total_pnl` =
総損益(手数料込み), `fee_total` = 手数料合計. -/
structure Summary where
  end_equity : ℚ
  fx_fee_inclusive : ℚ
  swap_total : ℚ
  total_pnl : ℚ
  fee_total : ℚ

/-- Source `compute_series(prices, initial_deposit, lots, direction_sign, swap_input)`.
On an empty price array the Python code raises `IndexError` at `prices[0]`
(and `equity[-1]`), modelled as `none`. -/
def compute_series (prices : List ℚ) (initial_deposit : ℚ) (lots direction_sign : ℤ)
    (swap_per_lot_per_day_input : ℚ) : Option Summary :=
  match prices with
  | [] => none
  | p :: ps =>
    let fx := fx_total (p :: ps) lots direction_sign
    let sw := (engineSwap (p :: ps) lots direction_sign swap_per_lot_per_day_input).sum
    let fe := (feeList (p :: ps).length lots).sum
    let fee_abs := |fe|
    let equity := equityList initial_deposit
      (pnl_totalList (p :: ps) lots direction_sign swap_per_lot_per_day_input)
    let end_equity := equity.getLastD 0
    some ⟨end_equity, fx - fee_abs, sw, end_equity - initial_deposit, fe⟩

/-- One row of the engine's per-day decomposition: the five per-day arrays
`pnl_fx`, `swap`, `fee`, `pnl_total`, `equity` computed inside `compute_series`. -/
structure DailyRec where
  fx : ℚ
  swapAmt : ℚ
  fee : ℚ
  total : ℚ
  equity : ℚ

/-- The per-day record sequence assembled from the five arrays that
`compute_series` computes (row `i` collects index `i` of each array). -/
def dailyRecords (prices : List ℚ) (initial_deposit : ℚ) (lots direction_sign : ℤ)
    (swap_input : ℚ) : List DailyRec :=
  let fxs := pnl_fxList prices lots direction_sign
  let sws := engineSwap prices lots direction_sign swap_input
  let fes := feeList prices.length lots
  let tots := pnl_totalList prices lots direction_sign swap_input
  let eqs := equityList initial_deposit tots
  (List.range prices.length).map
    (fun i => ⟨fxs.getD i 0, sws.getD i 0, fes.getD i 0, tots.getD i 0, eqs.getD i 0⟩)

/-- The sizing state held in `st.session_state`: the fields read and written
by the reconciliation callbacks. -/
structure SizeState where
  deposit : ℚ
  per_lot_margin : ℚ
  s0 : ℚ
  leff : ℚ
  lots : ℤ

/-- Python 3 `round` on a rational: nearest integer, ties to even. -/
def pyRound (x : ℚ) : ℤ :=
  if x - ⌊x⌋ < 1/2 then ⌊x⌋
  else if 1/2 < x - ⌊x⌋ then ⌊x⌋ + 1
  else if ⌊x⌋ % 2 = 0 then ⌊x⌋ else ⌊x⌋ + 1

/-- Python `round(x, 2)`. -/
def round2 (x : ℚ) : ℚ := (pyRound (x * 100) : ℚ) / 100

/-- Source `_recalc_from_leff`: recomputes `lots` from the held leverage
target, capped by the margin cap. -/
def recalc_from_leff (st : SizeState) : SizeState :=
  let cap := lots_cap_by_margin st.deposit st.per_lot_margin
  let lots_lev := lots_from_leverage st.leff st.deposit st.s0
  { st with lots := max 1 (min lots_lev cap) }

/-- Source `_recalc_from_lots`: clamps `lots` to the margin cap, then (when
`deposit > 0 and s0 > 0`) back-computes the effective leverage, rounded to
2 decimals and floored at 0.1. -/
def recalc_from_lots (st : SizeState) : SizeState :=
  let cap := lots_cap_by_margin st.deposit st.per_lot_margin
  let lots2 := max 1 (min st.lots cap)
  if 0 < st.deposit ∧ 0 < st.s0 then
    { st with
        lots := lots2
        leff := max (1/10) (round2 ((lots2 : ℚ) * st.s0 * LOT_UNITS / st.deposit)) }
  else { st with lots := lots2 }

/-- One full leverage→lots→rounded-leverage reconciliation pass, as described
by the spec: derive lots from the leverage target, then re-derive the rounded
effective leverage from the resulting lots. -/
def reconcile (st : SizeState) : SizeState := recalc_from_lots (recalc_from_leff st)

/-- Source `leff_actual` (main body, lines 204-207): reported effective
leverage, 0 unless `deposit > 0 and s0 > 0`. -/
def leff_actual (lots : ℤ) (s0 deposit : ℚ) : ℚ :=
  if 0 < deposit ∧ 0 < s0 then ((lots : ℚ) * s0 * LOT_UNITS) / deposit else 0

/-! ### Length lemmas: every per-day array has one entry per price point. -/

theorem length_diffList (prices : List ℚ) : (diffList prices).length = prices.length := by
  cases prices with
  | nil => rfl
  | cons p ps => simp [diffList]

theorem length_swapList (n : ℕ) (d : ℚ) : (swapList n d).length = n := by
  unfold swapList
  split
  · rename_i h
    simp
    omega
  · simp

theorem length_engineSwap (prices : List ℚ) (lots direction_sign : ℤ) (w : ℚ) :
    (engineSwap prices lots direction_sign w).length = prices.length := by
  simp [engineSwap, length_swapList]

theorem length_pnl_fxList (prices : List ℚ) (lots direction_sign : ℤ) :
    (pnl_fxList prices lots direction_sign).length = prices.length := by
  simp [pnl_fxList, length_diffList]

theorem length_feeList (n : ℕ) (lots : ℤ) : (feeList n lots).length = n := by
  unfold feeList
  split <;> split <;> simp

theorem length_pnl_totalList (prices : List ℚ) (lots direction_sign : ℤ) (w : ℚ) :
    (pnl_totalList prices lots direction_sign w).length = prices.length := by
  simp [pnl_totalList, length_pnl_fxList, length_engineSwap, length_feeList]

theorem length_cumsumFrom (acc : ℚ) (l : List ℚ) : (cumsumFrom acc l).length = l.length := by
  induction l generalizing acc with
  | nil => rfl
  | cons x xs ih => simp [cumsumFrom, ih]

theorem length_dailyRecords (prices : List ℚ) (dep : ℚ) (lots direction_sign : ℤ) (w : ℚ) :
    (dailyRecords prices dep lots direction_sign w).length = prices.length := by
  simp [dailyRecords]

/-! ### Sum lemmas. -/

theorem sum_zipWith_add (a b : List ℚ) (h : a.length = b.length) :
    (List.zipWith (· + ·) a b).sum = a.sum + b.sum := by
  induction a generalizing b with
  | nil =>
    cases b with
    | nil => simp
    | cons y ys => simp at h
  | cons x xs ih =>
    cases b with
    | nil => simp at h
    | cons y ys =>
      simp only [List.zipWith_cons_cons, List.sum_cons]
      rw [ih ys (by simpa using h)]
      ring

theorem getLastD_ne_nil (l : List ℚ) (d d' : ℚ) (h : l ≠ []) : l.getLastD d = l.getLastD d' := by
  cases l with
  | nil => exact absurd rfl h
  | cons x xs => simp only [List.getLastD_cons]

theorem zip_sub_telescope (p : ℚ) (ps : List ℚ) :
    (List.zipWith (fun a b => a - b) ps (p :: ps)).sum = (p :: ps).getLastD 0 - p := by
  induction ps generalizing p with
  | nil => simp
  | cons q qs ih =>
    simp only [List.zipWith_cons_cons, List.sum_cons]
    rw [ih q]
    have h1 : (p :: q :: qs).getLastD 0 = (q :: qs).getLastD 0 := by
      rw [List.getLastD_cons]
      exact getLastD_ne_nil _ _ _ (by simp)
    rw [h1]
    ring

theorem sum_diffList (p : ℚ) (ps : List ℚ) :
    (diffList (p :: ps)).sum = (p :: ps).getLastD 0 - p := by
  simp only [diffList, List.zipWith_cons_cons, List.sum_cons, sub_self, zero_add]
  exact zip_sub_telescope p ps

theorem fx_total_eq (p : ℚ) (ps : List ℚ) (lots direction_sign : ℤ) :
    fx_total (p :: ps) lots direction_sign =
      (direction_sign : ℚ) * ((lots : ℚ) * LOT_UNITS) * ((p :: ps).getLastD 0 - p) := by
  unfold fx_total pnl_fxList
  have hmap : ∀ l : List ℚ,
      (l.map (fun d => (direction_sign : ℚ) * d * ((lots : ℚ) * LOT_UNITS))).sum =
        (direction_sign : ℚ) * ((lots : ℚ) * LOT_UNITS) * l.sum := by
    intro l
    induction l with
    | nil => simp
    | cons x xs ih =>
      simp only [List.map_cons, List.sum_cons, ih]
      ring
  rw [hmap, sum_diffList]

theorem sum_swapList (n : ℕ) (d : ℚ) :
    (swapList n d).sum = if 1 < n then ((n : ℚ) - 1) * d else 0 := by
  unfold swapList
  split
  · rename_i h
    simp only [List.sum_cons, List.sum_replicate, nsmul_eq_mul, zero_add]
    have : ((n - 1 : ℕ) : ℚ) = (n : ℚ) - 1 := by
      have : 1 ≤ n := le_of_lt h
      push_cast [this]
      ring
    rw [this]
  · simp [List.sum_replicate]

/-! ### Shape of the fee series. -/

theorem set_last_replicate (m : ℕ) (b : ℚ) :
    (List.replicate (m + 1) (0 : ℚ)).set m b = List.replicate m 0 ++ [b] := by
  induction m with
  | zero => rfl
  | succ k ih =>
    have h1 : List.replicate (k + 2) (0 : ℚ) = 0 :: List.replicate (k + 1) 0 := rfl
    rw [h1, List.set_cons_succ, ih]
    rfl

theorem feeList_of_lots_nonpos (n : ℕ) (lots : ℤ) (h : lots ≤ 0) :
    feeList n lots = List.replicate n 0 := by
  unfold feeList
  have h1 : ¬ (1 ≤ n ∧ 0 < lots) := by omega
  have h2 : ¬ (2 ≤ n ∧ 0 < lots) := by omega
  simp [h1, h2]

theorem feeList_zero (lots : ℤ) : feeList 0 lots = [] := by
  unfold feeList
  have h1 : ¬ (1 ≤ 0 ∧ 0 < lots) := by omega
  have h2 : ¬ (2 ≤ 0 ∧ 0 < lots) := by omega
  simp [h1, h2]

theorem feeList_one (lots : ℤ) (h : 0 < lots) :
    feeList 1 lots = [-(FEE_PER_LOT_PER_SIDE * (lots : ℚ))] := by
  unfold feeList
  have h1 : (1 ≤ 1 ∧ 0 < lots) := ⟨le_refl 1, h⟩
  have h2 : ¬ (2 ≤ 1 ∧ 0 < lots) := by omega
  simp [h1, h2]

theorem feeList_two_le (n : ℕ) (lots : ℤ) (h2 : 2 ≤ n) (hl : 0 < lots) :
    feeList n lots =
      -(FEE_PER_LOT_PER_SIDE * (lots : ℚ)) ::
        (List.replicate (n - 2) 0 ++ [-(FEE_PER_LOT_PER_SIDE * (lots : ℚ))]) := by
  obtain ⟨m, rfl⟩ : ∃ m, n = m + 2 := ⟨n - 2, by omega⟩
  unfold feeList
  have hc1 : (1 ≤ m + 2 ∧ 0 < lots) := ⟨by omega, hl⟩
  have hc2 : (2 ≤ m + 2 ∧ 0 < lots) := ⟨by omega, hl⟩
  simp only [hc1, hc2, if_pos, and_self, if_true]
  have hrep : List.replicate (m + 2) (0 : ℚ) = 0 :: List.replicate (m + 1) 0 := rfl
  have hidx : m + 2 - 1 = m + 1 := by omega
  have hidx2 : m + 2 - 2 = m := by omega
  rw [hrep, List.set_cons_zero, hidx, hidx2, List.set_cons_succ, set_last_replicate]

theorem sum_feeList (n : ℕ) (lots : ℤ) :
    (feeList n lots).sum =
      if 0 < lots then
        (if n = 0 then 0
         else if n = 1 then -(FEE_PER_LOT_PER_SIDE * (lots : ℚ))
         else -(2 * FEE_PER_LOT_PER_SIDE * (lots : ℚ)))
      else 0 := by
  by_cases hl : 0 < lots
  · rw [if_pos hl]
    match n with
    | 0 =>
      rw [feeList_zero, List.sum_nil, if_pos rfl]
    | 1 =>
      rw [feeList_one lots hl, List.sum_cons, List.sum_nil, add_zero,
        if_neg (by omega : (1 : ℕ) ≠ 0), if_pos rfl]
    | (m + 2) =>
      rw [feeList_two_le (m + 2) lots (by omega) hl]
      rw [List.sum_cons, List.sum_append, List.sum_replicate, List.sum_cons, List.sum_nil]
      rw [smul_zero]
      rw [if_neg (by omega : m + 2 ≠ 0), if_neg (by omega : m + 2 ≠ 1)]
      ring
  · rw [if_neg hl, feeList_of_lots_nonpos n lots (le_of_not_lt hl)]
    rw [List.sum_replicate, smul_zero]

theorem FEE_nonneg : (0 : ℚ) ≤ FEE_PER_LOT_PER_SIDE := by
  rw [FEE_PER_LOT_PER_SIDE]
  norm_num

theorem sum_feeList_nonpos (n : ℕ) (lots : ℤ) : (feeList n lots).sum ≤ 0 := by
  rw [sum_feeList]
  split
  · rename_i hl
    have hq : (0 : ℚ) ≤ (lots : ℚ) := by exact_mod_cast le_of_lt hl
    split
    · exact le_refl 0
    · split
      · exact neg_nonpos.mpr (mul_nonneg FEE_nonneg hq)
      · exact neg_nonpos.mpr
          (mul_nonneg (mul_nonneg (by norm_num : (0 : ℚ) ≤ 2) FEE_nonneg) hq)
  · exact le_refl 0

/-! ### Equity: the last cumulative-sum entry is the deposit plus the total P&L. -/

theorem cumsumFrom_ne_nil (acc : ℚ) (x : ℚ) (xs : List ℚ) : cumsumFrom acc (x :: xs) ≠ [] := by
  intro hh
  have hlen := length_cumsumFrom acc (x :: xs)
  rw [hh] at hlen
  simp at hlen

theorem cumsumFrom_getLastD (acc : ℚ) (l : List ℚ) (h : l ≠ []) :
    (cumsumFrom acc l).getLastD 0 = acc + l.sum := by
  induction l generalizing acc with
  | nil => exact absurd rfl h
  | cons x xs ih =>
    cases xs with
    | nil => simp [cumsumFrom]
    | cons y ys =>
      have hstep : cumsumFrom acc (x :: y :: ys) = (acc + x) :: cumsumFrom (acc + x) (y :: ys) := rfl
      rw [hstep, List.getLastD_cons,
        getLastD_ne_nil _ _ 0 (cumsumFrom_ne_nil (acc + x) y ys),
        ih (acc + x) (by simp)]
      simp only [List.sum_cons]
      ring

theorem end_equity_eq (p : ℚ) (ps : List ℚ) (dep : ℚ) (lots sign : ℤ) (w : ℚ) :
    (equityList dep (pnl_totalList (p :: ps) lots sign w)).getLastD 0 =
      dep + (fx_total (p :: ps) lots sign
        + (engineSwap (p :: ps) lots sign w).sum
        + (feeList (p :: ps).length lots).sum) := by
  unfold equityList
  have hne : pnl_totalList (p :: ps) lots sign w ≠ [] := by
    intro hh
    have hlen := length_pnl_totalList (p :: ps) lots sign w
    rw [hh] at hlen
    simp at hlen
  rw [cumsumFrom_getLastD _ _ hne]
  congr 1
  unfold pnl_totalList
  rw [sum_zipWith_add, sum_zipWith_add]
  · rfl
  · rw [length_pnl_fxList, length_engineSwap]
  · simp only [List.length_zipWith, length_pnl_fxList, length_engineSwap, length_feeList,
      min_self]

/-- Closed form of `compute_series` on a nonempty price path, in terms of the
three aggregate sums. -/
theorem compute_series_eq (p : ℚ) (ps : List ℚ) (dep : ℚ) (lots sign : ℤ) (w : ℚ) :
    compute_series (p :: ps) dep lots sign w =
      some ⟨dep + (fx_total (p :: ps) lots sign + (engineSwap (p :: ps) lots sign w).sum
              + (feeList (p :: ps).length lots).sum),
            fx_total (p :: ps) lots sign - |(feeList (p :: ps).length lots).sum|,
            (engineSwap (p :: ps) lots sign w).sum,
            fx_total (p :: ps) lots sign + (engineSwap (p :: ps) lots sign w).sum
              + (feeList (p :: ps).length lots).sum,
            (feeList (p :: ps).length lots).sum⟩ := by
  simp only [compute_series, end_equity_eq, Option.some.injEq, Summary.mk.injEq]
  exact ⟨trivial, trivial, trivial, by ring, trivial⟩

/-! ### The linear price-path builder. -/

theorem length_build_prices_linear (days : ℤ) (s0 s1 : ℚ) :
    (build_prices_linear days s0 s1).length = (max 1 days).toNat + 1 := by
  unfold build_prices_linear
  rw [List.length_map, List.length_range]

theorem build_prices_ne_nil (days : ℤ) (s0 s1 : ℚ) : build_prices_linear days s0 s1 ≠ [] := by
  intro hh
  have hlen := length_build_prices_linear days s0 s1
  rw [hh] at hlen
  simp at hlen

theorem max_one_toNat_cast (days : ℤ) : (((max 1 days).toNat : ℚ)) = ((max 1 days : ℤ) : ℚ) := by
  have h0 : (0 : ℤ) ≤ max 1 days := le_trans zero_le_one (le_max_left 1 days)
  exact_mod_cast congrArg (fun z : ℤ => (z : ℚ)) (Int.toNat_of_nonneg h0)

theorem max_one_cast_ne_zero (days : ℤ) : ((max 1 days : ℤ) : ℚ) ≠ 0 := by
  have h1 : (1 : ℤ) ≤ max 1 days := le_max_left 1 days
  intro hh
  have : (max 1 days : ℤ) = 0 := by exact_mod_cast hh
  omega

theorem headI_build_prices_linear (days : ℤ) (s0 s1 : ℚ) :
    (build_prices_linear days s0 s1).headI = s0 := by
  unfold build_prices_linear
  rw [List.range_succ_eq_map]
  simp

theorem getLastD_build_prices_linear (days : ℤ) (s0 s1 : ℚ) :
    (build_prices_linear days s0 s1).getLastD 0 = s1 := by
  unfold build_prices_linear
  rw [List.range_succ, List.map_append]
  simp only [List.map_cons, List.map_nil, List.getLastD_concat]
  rw [max_one_toNat_cast days]
  rw [mul_div_assoc, div_self (max_one_cast_ne_zero days)]
  ring

theorem getD_build_prices_linear (days : ℤ) (s0 s1 : ℚ) (i : ℕ)
    (h : i < (max 1 days).toNat + 1) :
    (build_prices_linear days s0 s1).getD i 0 =
      s0 + (s1 - s0) * (i : ℚ) / ((max 1 days : ℤ) : ℚ) := by
  unfold build_prices_linear
  rw [List.getD_eq_getElem?_getD, List.getElem?_map, List.getElem?_range h]
  simp

/-! ### Closed forms on an arbitrary nonempty path. -/

theorem fx_total_eq_of_ne_nil (prices : List ℚ) (h : prices ≠ []) (lots direction_sign : ℤ) :
    fx_total prices lots direction_sign =
      (direction_sign : ℚ) * ((lots : ℚ) * LOT_UNITS) * (prices.getLastD 0 - prices.headI) := by
  cases prices with
  | nil => exact absurd rfl h
  | cons p ps =>
    rw [fx_total_eq]
    simp [List.headI]

theorem compute_series_eq_of_ne_nil (prices : List ℚ) (h : prices ≠ []) (dep : ℚ)
    (lots sign : ℤ) (w : ℚ) :
    compute_series prices dep lots sign w =
      some ⟨dep + (fx_total prices lots sign + (engineSwap prices lots sign w).sum
              + (feeList prices.length lots).sum),
            fx_total prices lots sign - |(feeList prices.length lots).sum|,
            (engineSwap prices lots sign w).sum,
            fx_total prices lots sign + (engineSwap prices lots sign w).sum
              + (feeList prices.length lots).sum,
            (feeList prices.length lots).sum⟩ := by
  cases prices with
  | nil => exact absurd rfl h
  | cons p ps => exact compute_series_eq p ps dep lots sign w

theorem sum_engineSwap (prices : List ℚ) (lots sign : ℤ) (w : ℚ) :
    (engineSwap prices lots sign w).sum =
      if 1 < prices.length
      then ((prices.length : ℚ) - 1) * (swap_sign sign * |w| * (lots : ℚ))
      else 0 := by
  unfold engineSwap
  rw [sum_swapList]

/-! ### The benchmark scenario: deposit 10,000,000, 33 lots, 7.8 → 8.2 over 365 days,
Long, swap 150/lot/day. -/

theorem scenario_prices_length :
    (build_prices_linear 365 (39/5) (41/5)).length = 366 := by
  rw [length_build_prices_linear]
  have hmax : (max 1 365 : ℤ) = 365 := by norm_num
  rw [hmax]
  rfl

theorem scenario_fx :
    fx_total (build_prices_linear 365 (39/5) (41/5)) 33 1 = 1320000 := by
  rw [fx_total_eq_of_ne_nil _ (build_prices_ne_nil 365 (39/5) (41/5)),
    getLastD_build_prices_linear, headI_build_prices_linear]
  norm_num [LOT_UNITS]

theorem scenario_swap :
    (engineSwap (build_prices_linear 365 (39/5) (41/5)) 33 1 150).sum = 1806750 := by
  rw [sum_engineSwap, scenario_prices_length]
  norm_num [swap_sign]

theorem scenario_fee :
    (feeList (build_prices_linear 365 (39/5) (41/5)).length 33).sum = -72600 := by
  rw [scenario_prices_length, sum_feeList]
  norm_num [FEE_PER_LOT_PER_SIDE]

theorem scenario_summary :
    compute_series (build_prices_linear 365 (39/5) (41/5)) 10000000 33 1 150 =
      some ⟨13054150, 1247400, 1806750, 3054150, -72600⟩ := by
  rw [compute_series_eq_of_ne_nil _ (build_prices_ne_nil 365 (39/5) (41/5)) 10000000 33 1 150,
    scenario_fx, scenario_swap, scenario_fee]
  norm_num

/-! ### Per-index values of the fee and swap series. -/

theorem feeList_getD_zero (n : ℕ) (lots : ℤ) (h2 : 2 ≤ n) (hl : 0 < lots) :
    (feeList n lots).getD 0 0 = -(FEE_PER_LOT_PER_SIDE * (lots : ℚ)) := by
  rw [feeList_two_le n lots h2 hl]
  rfl

theorem feeList_getD_last (n : ℕ) (lots : ℤ) (h2 : 2 ≤ n) (hl : 0 < lots) :
    (feeList n lots).getD (n - 1) 0 = -(FEE_PER_LOT_PER_SIDE * (lots : ℚ)) := by
  obtain ⟨m, rfl⟩ : ∃ m, n = m + 2 := ⟨n - 2, by omega⟩
  rw [feeList_two_le (m + 2) lots h2 hl]
  have hidx : m + 2 - 1 = m + 1 := by omega
  have hidx2 : m + 2 - 2 = m := by omega
  rw [hidx, hidx2, List.getD_cons_succ, List.getD_eq_getElem?_getD, List.getElem?_append_right
    (by simp : (List.replicate m (0:ℚ)).length ≤ m)]
  simp

theorem feeList_getD_mid (n : ℕ) (lots : ℤ) (i : ℕ) (h2 : 2 ≤ n) (hl : 0 < lots)
    (hi0 : 0 < i) (hin : i < n - 1) :
    (feeList n lots).getD i 0 = 0 := by
  obtain ⟨m, rfl⟩ : ∃ m, n = m + 2 := ⟨n - 2, by omega⟩
  obtain ⟨j, rfl⟩ : ∃ j, i = j + 1 := ⟨i - 1, by omega⟩
  rw [feeList_two_le (m + 2) lots h2 hl]
  have hidx2 : m + 2 - 2 = m := by omega
  rw [hidx2, List.getD_cons_succ, List.getD_eq_getElem?_getD]
  have hj : j < m := by omega
  simp [List.getElem?_append, List.getElem?_replicate, hj]

theorem engineSwap_headI (p : ℚ) (ps : List ℚ) (lots sign : ℤ) (w : ℚ) :
    (engineSwap (p :: ps) lots sign w).headI = 0 := by
  unfold engineSwap swapList
  split
  · rfl
  · rename_i h
    have hn : (p :: ps).length = 1 := by
      have := List.length_pos.mpr (List.cons_ne_nil p ps)
      omega
    rw [hn]
    rfl

theorem engineSwap_getD (p : ℚ) (ps : List ℚ) (lots sign : ℤ) (w : ℚ) (i : ℕ)
    (h1 : 1 ≤ i) (h2 : i < (p :: ps).length) :
    (engineSwap (p :: ps) lots sign w).getD i 0 = swap_sign sign * |w| * (lots : ℚ) := by
  unfold engineSwap swapList
  have hn : 1 < (p :: ps).length := by omega
  rw [if_pos hn]
  obtain ⟨j, rfl⟩ : ∃ j, i = j + 1 := ⟨i - 1, by omega⟩
  rw [List.getD_cons_succ, List.getD_eq_getElem?_getD]
  have hj : j < ps.length := by
    simp only [List.length_cons] at h2
    omega
  simp [List.getElem?_replicate, hj]

theorem sum_engineSwap_cons (p : ℚ) (ps : List ℚ) (lots sign : ℤ) (w : ℚ) :
    (engineSwap (p :: ps) lots sign w).sum =
      swap_sign sign * |w| * (lots : ℚ) * (((p :: ps).length : ℚ) - 1) := by
  rw [sum_engineSwap]
  split
  · ring
  · rename_i h
    have hn : (p :: ps).length = 1 := by
      have := List.length_pos.mpr (List.cons_ne_nil p ps)
      omega
    rw [hn]
    norm_num

/-! ## Claim theorems. -/

/-- C1 (amended): in the benchmark scenario (deposit 10,000,000, perLotMargin
40,000, 33 manual lots, rate 7.8 → 8.2 over 365 days, Long, swap magnitude 150
per lot per day, fee 1,100 per lot per side) the engine's summary has FX total
1,320,000 and fee total −72,600 as claimed, but the swap total is
150·33·365 = 1,806,750 (not 1,804,500) and the ending equity is
10,000,000 + 1,320,000 + 1,806,750 − 72,600 = 13,054,150 (not 13,051,900). -/
theorem C1_theorem :
    fx_total (build_prices_linear 365 (39/5) (41/5)) 33 1 = 1320000
    ∧ compute_series (build_prices_linear 365 (39/5) (41/5)) 10000000 33 1 150 =
        some ⟨13054150, 1247400, 1806750, 3054150, -72600⟩ :=
  ⟨scenario_fx, scenario_summary⟩

/-- C1 counterexample: on the stated scenario the code's swap total is not
1,804,500 and its ending equity is not 13,051,900 (they are 1,806,750 and
13,054,150). -/
theorem C1_counterexample :
    (compute_series (build_prices_linear 365 (39/5) (41/5)) 10000000 33 1 150).map
        Summary.swap_total ≠ some 1804500
    ∧ (compute_series (build_prices_linear 365 (39/5) (41/5)) 10000000 33 1 150).map
        Summary.end_equity ≠ some 13051900 := by
  rw [scenario_summary]
  constructor
  · intro h
    simp at h
  · intro h
    simp at h

theorem dayTwo_prices_length : (build_prices_linear 2 1 2).length = 3 := by
  rw [length_build_prices_linear]
  have hmax : (max 1 2 : ℤ) = 2 := by norm_num
  rw [hmax]
  rfl

theorem dayTwo_fx : fx_total (build_prices_linear 2 1 2) 1 1 = 100000 := by
  rw [fx_total_eq_of_ne_nil _ (build_prices_ne_nil 2 1 2),
    getLastD_build_prices_linear, headI_build_prices_linear]
  norm_num [LOT_UNITS]

theorem dayTwo_swap : (engineSwap (build_prices_linear 2 1 2) 1 1 0).sum = 0 := by
  rw [sum_engineSwap, dayTwo_prices_length]
  norm_num [swap_sign]

theorem dayTwo_fee : (feeList (build_prices_linear 2 1 2).length 1).sum = -2200 := by
  rw [dayTwo_prices_length, sum_feeList]
  norm_num [FEE_PER_LOT_PER_SIDE]

/-- C2: the code's `compute_series` does not return the per-day record
sequence the contract `compute → (DailyRecord[], SimulationSummary)`
promises.  At the valid input days = 2, startRate 1, endRate 2, deposit 5,
one lot, Long, swap 0, `compute_series` returns exactly the five-field
summary below and nothing else — its return value is `Option Summary`, the
translation of `return summary` in the source — while the per-day
decomposition it computes internally (and discards) does have length
days + 1 = 3. -/
theorem C2_theorem :
    compute_series (build_prices_linear 2 1 2) 5 1 1 0
        = some ⟨97805, 97800, 0, 97800, -2200⟩
    ∧ (dailyRecords (build_prices_linear 2 1 2) 5 1 1 0).length = 2 + 1 := by
  constructor
  · rw [compute_series_eq_of_ne_nil _ (build_prices_ne_nil 2 1 2) 5 1 1 0,
      dayTwo_fx, dayTwo_swap, dayTwo_fee]
    norm_num
  · rw [length_dailyRecords, dayTwo_prices_length]

/-- C4: with at least two price points and positive lots the fee series has
value −fee·lots at index 0 and at the last index, zeroes strictly between
(and −fee·lots is nonzero, so there are exactly two non-zero entries), summing
to −2·fee·lots; with a single price point only the open leg is charged. -/
theorem C4_theorem (n : ℕ) (lots : ℤ) (hl : 0 < lots) :
    (2 ≤ n →
      (feeList n lots).getD 0 0 = -(FEE_PER_LOT_PER_SIDE * (lots : ℚ))
      ∧ (feeList n lots).getD (n - 1) 0 = -(FEE_PER_LOT_PER_SIDE * (lots : ℚ))
      ∧ (∀ i, 0 < i → i < n - 1 → (feeList n lots).getD i 0 = 0)
      ∧ -(FEE_PER_LOT_PER_SIDE * (lots : ℚ)) ≠ 0
      ∧ (feeList n lots).sum = -(2 * FEE_PER_LOT_PER_SIDE * (lots : ℚ)))
    ∧ (n = 1 → (feeList n lots).sum = -(1 * FEE_PER_LOT_PER_SIDE * (lots : ℚ))) := by
  have hq : (0 : ℚ) < (lots : ℚ) := by exact_mod_cast hl
  have hF : (0 : ℚ) < FEE_PER_LOT_PER_SIDE := by
    rw [FEE_PER_LOT_PER_SIDE]
    norm_num
  constructor
  · intro h2
    refine ⟨feeList_getD_zero n lots h2 hl, feeList_getD_last n lots h2 hl,
      fun i hi0 hin => feeList_getD_mid n lots i h2 hl hi0 hin, ?_, ?_⟩
    · exact neg_ne_zero.mpr (ne_of_gt (mul_pos hF hq))
    · rw [sum_feeList, if_pos hl, if_neg (by omega), if_neg (by omega)]
  · intro h1
    subst h1
    rw [sum_feeList, if_pos hl, if_neg (by omega), if_pos rfl]
    ring

/-- C4 witness: a four-point path and a one-point path with 3 lots. -/
theorem C4_witness :
    (feeList 4 3).getD 0 0 = -(FEE_PER_LOT_PER_SIDE * (3 : ℚ))
    ∧ (feeList 4 3).getD 3 0 = -(FEE_PER_LOT_PER_SIDE * (3 : ℚ))
    ∧ (feeList 4 3).getD 2 0 = 0
    ∧ (feeList 4 3).sum = -(2 * FEE_PER_LOT_PER_SIDE * (3 : ℚ))
    ∧ (feeList 1 3).sum = -(1 * FEE_PER_LOT_PER_SIDE * (3 : ℚ)) := by
  obtain ⟨h2part, _⟩ := C4_theorem 4 3 (by norm_num)
  obtain ⟨ha, hb, hc, _, he⟩ := h2part (by norm_num)
  exact ⟨ha, hb, hc 2 (by norm_num) (by norm_num), he, (C4_theorem 1 3 (by norm_num)).2 rfl⟩

/-- C5: the engine's swap series starts at 0 and every later entry equals
`s · |swapInput| · lots` where `s` is +1 for Long (sign = 1) and −1 otherwise,
independent of the raw sign of the swap input; the total is that daily amount
times the number of days (path length − 1). -/
theorem C5_theorem (p : ℚ) (ps : List ℚ) (lots sign : ℤ) (w : ℚ) :
    swap_sign 1 = 1
    ∧ swap_sign (-1) = -1
    ∧ (engineSwap (p :: ps) lots sign w).headI = 0
    ∧ (∀ i, 1 ≤ i → i < (p :: ps).length →
        (engineSwap (p :: ps) lots sign w).getD i 0 = swap_sign sign * |w| * (lots : ℚ))
    ∧ (engineSwap (p :: ps) lots sign w).sum
        = swap_sign sign * |w| * (lots : ℚ) * (((p :: ps).length : ℚ) - 1) := by
  refine ⟨rfl, ?_, engineSwap_headI p ps lots sign w,
    engineSwap_getD p ps lots sign w, sum_engineSwap_cons p ps lots sign w⟩
  unfold swap_sign
  norm_num

/-- C5 witness: a three-point path, Short, with a negative raw swap input. -/
theorem C5_witness :
    (engineSwap (1 :: [2, 3]) 2 (-1) (-5)).headI = 0
    ∧ (engineSwap (1 :: [2, 3]) 2 (-1) (-5)).getD 1 0 = swap_sign (-1) * |(-5 : ℚ)| * (2 : ℚ)
    ∧ (engineSwap (1 :: [2, 3]) 2 (-1) (-5)).sum
        = swap_sign (-1) * |(-5 : ℚ)| * (2 : ℚ) * ((((1 : ℚ) :: [2, 3]).length : ℚ) - 1) := by
  obtain ⟨_, _, hh, hg, hs⟩ := C5_theorem 1 [2, 3] 2 (-1) (-5)
  exact ⟨hh, hg 1 (by norm_num) (by simp), hs⟩

/-- C6: flipping the direction sign from +1 to −1 negates the FX P&L series
and the swap series entrywise, leaves the fee column of the per-day records
unchanged, and the day-0 price diff is 0. -/
theorem C6_theorem (p : ℚ) (ps : List ℚ) (dep : ℚ) (lots : ℤ) (w : ℚ) :
    pnl_fxList (p :: ps) lots (-1) = (pnl_fxList (p :: ps) lots 1).map (fun x => -x)
    ∧ engineSwap (p :: ps) lots (-1) w = (engineSwap (p :: ps) lots 1 w).map (fun x => -x)
    ∧ (dailyRecords (p :: ps) dep lots (-1) w).map DailyRec.fee
        = (dailyRecords (p :: ps) dep lots 1 w).map DailyRec.fee
    ∧ (diffList (p :: ps)).headI = 0 := by
  refine ⟨?_, ?_, ?_, ?_⟩
  · unfold pnl_fxList
    rw [List.map_map]
    apply List.map_congr_left
    intro a _
    simp only [Function.comp_apply]
    push_cast
    ring
  · unfold engineSwap swapList
    by_cases hc : 1 < (p :: ps).length
    · rw [if_pos hc, if_pos hc]
      simp only [List.map_cons, List.map_replicate, neg_zero]
      unfold swap_sign
      norm_num
    · rw [if_neg hc, if_neg hc]
      simp [List.map_replicate]
  · unfold dailyRecords
    rw [List.map_map, List.map_map]
    apply List.map_congr_left
    intro a _
    rfl
  · simp [diffList]

/-- C7: the price-path builder returns max(1, days) + 1 points, starting at
the start rate, ending at the end rate, linearly spaced; days < 1 is clamped
to 1. -/
theorem C7_theorem (days : ℤ) (s0 s1 : ℚ) :
    (build_prices_linear days s0 s1).length = (max 1 days).toNat + 1
    ∧ (build_prices_linear days s0 s1).headI = s0
    ∧ (build_prices_linear days s0 s1).getLastD 0 = s1
    ∧ (∀ i : ℕ, i < (max 1 days).toNat + 1 →
        (build_prices_linear days s0 s1).getD i 0
          = s0 + (s1 - s0) * (i : ℚ) / ((max 1 days : ℤ) : ℚ))
    ∧ (days < 1 → build_prices_linear days s0 s1 = build_prices_linear 1 s0 s1) := by
  refine ⟨length_build_prices_linear days s0 s1, headI_build_prices_linear days s0 s1,
    getLastD_build_prices_linear days s0 s1, getD_build_prices_linear days s0 s1, ?_⟩
  intro h
  unfold build_prices_linear
  rw [max_eq_left (by omega : days ≤ 1), max_eq_left (le_refl (1 : ℤ))]

/-- C7 witness: a two-day path evaluated at index 1, and the clamp at
days = −3. -/
theorem C7_witness :
    (build_prices_linear 2 1 4).length = (max 1 (2 : ℤ)).toNat + 1
    ∧ (build_prices_linear 2 1 4).headI = 1
    ∧ (build_prices_linear 2 1 4).getLastD 0 = 4
    ∧ (build_prices_linear 2 1 4).getD 1 0
        = 1 + ((4 : ℚ) - 1) * ((1 : ℕ) : ℚ) / ((max 1 (2 : ℤ) : ℤ) : ℚ)
    ∧ build_prices_linear (-3) 1 4 = build_prices_linear 1 1 4 := by
  obtain ⟨hlen, hhead, hlast, hform, _⟩ := C7_theorem 2 1 4
  obtain ⟨_, _, _, _, hclamp⟩ := C7_theorem (-3) 1 4
  exact ⟨hlen, hhead, hlast, hform 1 (by decide), hclamp (by decide)⟩

/-- C10: on every nonempty path the summary is internally consistent: ending
equity minus the deposit is the sum of the three aggregates, the fee total is
never positive, and the fee-inclusive FX metric `fx − |fee|` equals
`fx + fee`. -/
theorem C10_theorem (p : ℚ) (ps : List ℚ) (dep : ℚ) (lots sign : ℤ) (w : ℚ) :
    ∃ s : Summary, compute_series (p :: ps) dep lots sign w = some s
      ∧ s.end_equity - dep = fx_total (p :: ps) lots sign + s.swap_total + s.fee_total
      ∧ s.fee_total ≤ 0
      ∧ s.fx_fee_inclusive = fx_total (p :: ps) lots sign + s.fee_total := by
  refine ⟨_, compute_series_eq p ps dep lots sign w, ?_, ?_, ?_⟩
  · ring
  · exact sum_feeList_nonpos _ _
  · have h := sum_feeList_nonpos (p :: ps).length lots
    show fx_total (p :: ps) lots sign - |(feeList (p :: ps).length lots).sum| = _
    rw [abs_of_nonpos h]
    ring

/-! ### Sizing-state helpers. -/

theorem recalc_from_leff_lots (st : SizeState) :
    (recalc_from_leff st).lots =
      max 1 (min (lots_from_leverage st.leff st.deposit st.s0)
        (lots_cap_by_margin st.deposit st.per_lot_margin)) := rfl

theorem recalc_from_lots_lots (st : SizeState) :
    (recalc_from_lots st).lots =
      max 1 (min st.lots (lots_cap_by_margin st.deposit st.per_lot_margin)) := by
  unfold recalc_from_lots
  split <;> rfl

theorem recalc_from_leff_deposit (st : SizeState) :
    (recalc_from_leff st).deposit = st.deposit := rfl

theorem recalc_from_lots_deposit (st : SizeState) :
    (recalc_from_lots st).deposit = st.deposit := by
  unfold recalc_from_lots
  split <;> rfl

/-- C3 (amended): every sizing mode — the margin cap itself, the
leverage-targeted recomputation, and the manual-lots reconciliation — yields a
lot count in `[1, cap]` where `cap = max(1, floor(deposit / max(1, perLotMargin)))`
is the code's margin cap; when `perLotMargin ≥ 1` and
`floor(deposit/perLotMargin) ≥ 1` this cap coincides with the claimed bound
`floor(deposit/perLotMargin)`. -/
theorem C3_theorem (st : SizeState) :
    1 ≤ lots_cap_by_margin st.deposit st.per_lot_margin
    ∧ (1 ≤ (recalc_from_leff st).lots
        ∧ (recalc_from_leff st).lots ≤ lots_cap_by_margin st.deposit st.per_lot_margin)
    ∧ (1 ≤ (recalc_from_lots st).lots
        ∧ (recalc_from_lots st).lots ≤ lots_cap_by_margin st.deposit st.per_lot_margin)
    ∧ (1 ≤ st.per_lot_margin → 1 ≤ ⌊st.deposit / st.per_lot_margin⌋ →
        lots_cap_by_margin st.deposit st.per_lot_margin = ⌊st.deposit / st.per_lot_margin⌋) := by
  have hcap1 : (1 : ℤ) ≤ lots_cap_by_margin st.deposit st.per_lot_margin := le_max_left _ _
  refine ⟨hcap1, ?_, ?_, ?_⟩
  · rw [recalc_from_leff_lots]
    omega
  · rw [recalc_from_lots_lots]
    omega
  · intro h1 h2
    unfold lots_cap_by_margin safe_floor
    rw [max_eq_right h1]
    exact max_eq_right h2

/-- C3 witness: the defaults deposit 10,000,000 and margin 40,000 (cap 250). -/
theorem C3_witness :
    1 ≤ lots_cap_by_margin 10000000 40000
    ∧ (1 ≤ (recalc_from_leff ⟨10000000, 40000, 39/5, 3, 33⟩).lots
        ∧ (recalc_from_leff ⟨10000000, 40000, 39/5, 3, 33⟩).lots ≤ lots_cap_by_margin 10000000 40000)
    ∧ (1 ≤ (recalc_from_lots ⟨10000000, 40000, 39/5, 3, 33⟩).lots
        ∧ (recalc_from_lots ⟨10000000, 40000, 39/5, 3, 33⟩).lots ≤ lots_cap_by_margin 10000000 40000)
    ∧ lots_cap_by_margin 10000000 40000 = ⌊(10000000 : ℚ) / 40000⌋ := by
  obtain ⟨h1, h2, h3, h4⟩ := C3_theorem ⟨10000000, 40000, 39/5, 3, 33⟩
  exact ⟨h1, h2, h3, h4 (by norm_num) (by norm_num)⟩

/-- C3 counterexample: at deposit 0 and perLotMargin 40,000 the margin-capped
mode returns 1 lot, but the claimed interval `[1, floor(0/40000)] = [1, 0]` is
empty: 1 exceeds the claimed upper bound. -/
theorem C3_counterexample :
    lots_cap_by_margin 0 40000 = 1
    ∧ ¬ lots_cap_by_margin 0 40000 ≤ ⌊(0 : ℚ) / 40000⌋ := by
  have h : lots_cap_by_margin 0 40000 = 1 := by
    unfold lots_cap_by_margin safe_floor
    norm_num
  refine ⟨h, ?_⟩
  rw [h]
  norm_num

/-- C8 (amended): with deposit ≤ 0 (and nonnegative leverage target) every
sizing mode returns 1 lot without raising — division never occurs on a zero
divisor thanks to the source's guards — and `leff_actual` reports 0; with
startRate ≤ 0 the leverage-derived sizing returns 1 and `leff_actual` reports
0, while the margin-capped mode is unaffected by the start rate. -/
theorem C8_theorem (deposit m s0 leff : ℚ) (lots : ℤ) :
    (deposit ≤ 0 → 0 ≤ leff →
      lots_cap_by_margin deposit m = 1
      ∧ lots_from_leverage leff deposit s0 = 1
      ∧ (recalc_from_leff ⟨deposit, m, s0, leff, lots⟩).lots = 1
      ∧ (recalc_from_lots ⟨deposit, m, s0, leff, lots⟩).lots = 1
      ∧ leff_actual lots s0 deposit = 0)
    ∧ (s0 ≤ 0 → lots_from_leverage leff deposit s0 = 1 ∧ leff_actual lots s0 deposit = 0) := by
  constructor
  · intro hd hl
    have hcap : lots_cap_by_margin deposit m = 1 := by
      unfold lots_cap_by_margin safe_floor
      have hmx : (0 : ℚ) < max 1 m := lt_of_lt_of_le one_pos (le_max_left 1 m)
      have hdiv : deposit / max 1 m ≤ 0 := div_nonpos_of_nonpos_of_nonneg hd hmx.le
      have hfl : ⌊deposit / max 1 m⌋ ≤ 0 := Int.floor_nonpos hdiv
      omega
    have hlev : lots_from_leverage leff deposit s0 = 1 := by
      unfold lots_from_leverage safe_floor
      split
      · rfl
      · rename_i hs
        push_neg at hs
        have hU : (0 : ℚ) < LOT_UNITS := by
          rw [LOT_UNITS]
          norm_num
        have hnum : leff * deposit ≤ 0 := mul_nonpos_iff.mpr (Or.inl ⟨hl, hd⟩)
        have hden : (0 : ℚ) < s0 * LOT_UNITS := mul_pos hs hU
        have hdiv : leff * deposit / (s0 * LOT_UNITS) ≤ 0 :=
          div_nonpos_of_nonpos_of_nonneg hnum hden.le
        have hfl : ⌊leff * deposit / (s0 * LOT_UNITS)⌋ ≤ 0 := Int.floor_nonpos hdiv
        omega
    refine ⟨hcap, hlev, ?_, ?_, ?_⟩
    · rw [recalc_from_leff_lots]
      simp only [hcap, hlev]
      omega
    · rw [recalc_from_lots_lots]
      simp only [hcap]
      omega
    · unfold leff_actual
      rw [if_neg]
      rintro ⟨h1, _⟩
      linarith
  · intro hs
    constructor
    · unfold lots_from_leverage
      rw [if_pos hs]
    · unfold leff_actual
      rw [if_neg]
      rintro ⟨_, h2⟩
      linarith

/-- C8 witness: deposit 0 with the default margin, start rate 7.8 and leverage
target 3; and separately start rate −1 with a positive deposit. -/
theorem C8_witness :
    (lots_cap_by_margin 0 40000 = 1
      ∧ lots_from_leverage 3 0 (39/5) = 1
      ∧ (recalc_from_leff ⟨0, 40000, 39/5, 3, 33⟩).lots = 1
      ∧ (recalc_from_lots ⟨0, 40000, 39/5, 3, 33⟩).lots = 1
      ∧ leff_actual 33 (39/5) 0 = 0)
    ∧ (lots_from_leverage 3 10000000 (-1) = 1 ∧ leff_actual 33 (-1) 10000000 = 0) :=
  ⟨(C8_theorem 0 40000 (39/5) 3 33).1 (by norm_num) (by norm_num),
   (C8_theorem 10000000 40000 (-1) 3 33).2 (by norm_num)⟩

/-- C8 counterexample: with startRate = −1 ≤ 0 but deposit 10,000,000 and
margin 40,000, the margin-capped sizing returns 250 lots and the manual-lots
reconciliation keeps 33 lots — not the claimed universal fallback of 1. -/
theorem C8_counterexample :
    ((-1 : ℚ) ≤ 0)
    ∧ lots_cap_by_margin 10000000 40000 = 250
    ∧ (recalc_from_lots ⟨10000000, 40000, -1, 3, 33⟩).lots = 33 := by
  have hcap : lots_cap_by_margin 10000000 40000 = 250 := by
    unfold lots_cap_by_margin safe_floor
    rw [show (max (1 : ℚ) 40000) = 40000 from max_eq_right (by norm_num)]
    rw [show ⌊(10000000 : ℚ) / 40000⌋ = 250 from by norm_num]
    norm_num
  refine ⟨by norm_num, hcap, ?_⟩
  rw [recalc_from_lots_lots]
  simp only [hcap]
  norm_num

/-- C9 (amended): each reconciliation direction is individually idempotent —
re-running the leverage→lots callback, or the lots→leverage callback, with no
other input change leaves the state fixed. -/
theorem C9_theorem (st : SizeState) :
    recalc_from_leff (recalc_from_leff st) = recalc_from_leff st
    ∧ recalc_from_lots (recalc_from_lots st) = recalc_from_lots st := by
  obtain ⟨d, m, s, l, lo⟩ := st
  constructor
  · rfl
  · have hcap1 : (1 : ℤ) ≤ lots_cap_by_margin d m := le_max_left _ _
    have hK : max 1 (min (max 1 (min lo (lots_cap_by_margin d m))) (lots_cap_by_margin d m))
        = max 1 (min lo (lots_cap_by_margin d m)) := by omega
    by_cases h : (0 : ℚ) < d ∧ (0 : ℚ) < s
    · have inner : recalc_from_lots ⟨d, m, s, l, lo⟩ =
          ⟨d, m, s,
            max (1/10) (round2 (((max 1 (min lo (lots_cap_by_margin d m)) : ℤ) : ℚ)
              * s * LOT_UNITS / d)),
            max 1 (min lo (lots_cap_by_margin d m))⟩ := by
        unfold recalc_from_lots
        rw [if_pos h]
      rw [inner]
      unfold recalc_from_lots
      rw [if_pos h]
      rw [hK]
    · have inner : recalc_from_lots ⟨d, m, s, l, lo⟩ =
          ⟨d, m, s, l, max 1 (min lo (lots_cap_by_margin d m))⟩ := by
        unfold recalc_from_lots
        rw [if_neg h]
      rw [inner]
      unfold recalc_from_lots
      rw [if_neg h]
      rw [hK]

/-! ### Concrete evaluation of one full reconciliation pass at the default
inputs, showing the composite is not idempotent. -/

theorem round2_step1 : round2 (1287/500) = 257/100 := by
  unfold round2 pyRound
  rw [show (1287/500 : ℚ) * 100 = 1287/5 from by norm_num]
  rw [if_pos (by norm_num : (1287/5 : ℚ) - ⌊(1287/5 : ℚ)⌋ < 1/2)]
  norm_num

theorem round2_step2 : round2 (312/125) = 5/2 := by
  unfold round2 pyRound
  rw [show (312/125 : ℚ) * 100 = 1248/5 from by norm_num]
  rw [if_neg (by norm_num : ¬ ((1248/5 : ℚ) - ⌊(1248/5 : ℚ)⌋ < 1/2))]
  rw [if_pos (by norm_num : (1/2 : ℚ) < (1248/5 : ℚ) - ⌊(1248/5 : ℚ)⌋)]
  norm_num

theorem cap_defaults : lots_cap_by_margin 10000000 40000 = 250 := by
  unfold lots_cap_by_margin safe_floor
  rw [show (max (1 : ℚ) 40000) = 40000 from max_eq_right (by norm_num)]
  rw [show ⌊(10000000 : ℚ) / 40000⌋ = 250 from by norm_num]
  norm_num

theorem lev_step1 : lots_from_leverage (129/50) 10000000 (39/5) = 33 := by
  unfold lots_from_leverage safe_floor
  rw [if_neg (by norm_num : ¬ ((39 : ℚ)/5 ≤ 0))]
  rw [show (129/50 : ℚ) * 10000000 / ((39/5) * LOT_UNITS) = 430/13 from by norm_num [LOT_UNITS]]
  rw [show ⌊(430/13 : ℚ)⌋ = 33 from by norm_num]
  omega

theorem lev_step2 : lots_from_leverage (257/100) 10000000 (39/5) = 32 := by
  unfold lots_from_leverage safe_floor
  rw [if_neg (by norm_num : ¬ ((39 : ℚ)/5 ≤ 0))]
  rw [show (257/100 : ℚ) * 10000000 / ((39/5) * LOT_UNITS) = 1285/39 from by
    norm_num [LOT_UNITS]]
  rw [show ⌊(1285/39 : ℚ)⌋ = 32 from by norm_num]
  omega

theorem reconcile_scn1 :
    reconcile ⟨10000000, 40000, 39/5, 129/50, 33⟩ = ⟨10000000, 40000, 39/5, 257/100, 33⟩ := by
  have step1 : recalc_from_leff ⟨10000000, 40000, 39/5, 129/50, 33⟩
      = ⟨10000000, 40000, 39/5, 129/50, 33⟩ := by
    unfold recalc_from_leff
    rw [lev_step1, cap_defaults]
    show (⟨10000000, 40000, 39/5, 129/50, max 1 (min (33 : ℤ) 250)⟩ : SizeState)
        = ⟨10000000, 40000, 39/5, 129/50, 33⟩
    rw [show max (1 : ℤ) (min 33 250) = 33 from by omega]
  have step2 : recalc_from_lots ⟨10000000, 40000, 39/5, 129/50, 33⟩
      = ⟨10000000, 40000, 39/5, 257/100, 33⟩ := by
    unfold recalc_from_lots
    rw [if_pos (⟨by norm_num, by norm_num⟩ : (0 : ℚ) < 10000000 ∧ (0 : ℚ) < 39/5)]
    rw [cap_defaults]
    rw [show max (1 : ℤ) (min 33 250) = 33 from by omega]
    rw [show (((33 : ℤ) : ℚ) * (39/5) * LOT_UNITS / 10000000) = 1287/500 from by
      norm_num [LOT_UNITS]]
    rw [round2_step1]
    rw [show max (1/10 : ℚ) (257/100) = 257/100 from max_eq_right (by norm_num)]
  unfold reconcile
  rw [step1, step2]

theorem reconcile_scn2 :
    reconcile ⟨10000000, 40000, 39/5, 257/100, 33⟩ = ⟨10000000, 40000, 39/5, 5/2, 32⟩ := by
  have step1 : recalc_from_leff ⟨10000000, 40000, 39/5, 257/100, 33⟩
      = ⟨10000000, 40000, 39/5, 257/100, 32⟩ := by
    unfold recalc_from_leff
    rw [lev_step2, cap_defaults]
    show (⟨10000000, 40000, 39/5, 257/100, max 1 (min (32 : ℤ) 250)⟩ : SizeState)
        = ⟨10000000, 40000, 39/5, 257/100, 32⟩
    rw [show max (1 : ℤ) (min 32 250) = 32 from by omega]
  have step2 : recalc_from_lots ⟨10000000, 40000, 39/5, 257/100, 32⟩
      = ⟨10000000, 40000, 39/5, 5/2, 32⟩ := by
    unfold recalc_from_lots
    rw [if_pos (⟨by norm_num, by norm_num⟩ : (0 : ℚ) < 10000000 ∧ (0 : ℚ) < 39/5)]
    rw [cap_defaults]
    rw [show max (1 : ℤ) (min 32 250) = 32 from by omega]
    rw [show (((32 : ℤ) : ℚ) * (39/5) * LOT_UNITS / 10000000) = 312/125 from by
      norm_num [LOT_UNITS]]
    rw [round2_step2]
    rw [show max (1/10 : ℚ) (5/2) = 5/2 from max_eq_right (by norm_num)]
  unfold reconcile
  rw [step1, step2]

/-- C9 counterexample: starting from deposit 10,000,000, margin 40,000, start
rate 7.8, leverage target 2.58, a first leverage→lots→rounded-leverage pass
settles at lots 33, leverage 2.57; applying the same pass again yields lots 32,
leverage 2.50 — the second application does not reproduce the first. -/
theorem C9_counterexample :
    reconcile (reconcile ⟨10000000, 40000, 39/5, 129/50, 33⟩)
      ≠ reconcile ⟨10000000, 40000, 39/5, 129/50, 33⟩ := by
  rw [reconcile_scn1, reconcile_scn2]
  intro h
  have hlots := congrArg SizeState.lots h
  simp at hlots
